import Mathlib

/-!
Verification of the equilibrium-concentration solver of `nupack-serve`
(`src/thermo/concentrations/CalcConc.c`) against its natural-language
specification.  The C code is shallowly embedded: C `double`s become real
numbers, arrays become functions out of `Fin n`, the process-scoped random
number generator becomes an explicit stream `u : ℕ → ℝ` together with a
cursor into the stream, and the unbounded `while` loops become fuelled
recursions (the two driver loops are exactly bounded by `MaxIters` and
`MaxTrial`, so with that much fuel the embedding coincides with the C
loops; the perturbation loop receives explicit fuel and reports
exhaustion).  `exit(ERR_OVERFLOW)` becomes the `Step.fatal` outcome.

Helper routines that live in files of this repository not present under
`src/` (`utils.c`: `dot`, `didot`, `sumint`, `sum`, `norm`, `min2`,
`MatrixVectorMult`, `IntTranspose`, `FindNonZero`, `choleskyDecomposition`,
`choleskySolve`, `GetRandSeed`; `constants.h`: `MAXLOGX`, `NUM_PRECISION`)
are modelled from the specification text; each such definition is marked
`Modelled from the spec:` in its doc string.
-/

open Classical

/-- Modelled from the spec: `MAXLOGX` is declared in `constants.h`, which is
not under `src/`.  Per §4.1 and §6 it is a fixed ceiling on `log x[j]`
(≈ log of the largest safely representable positive double minus a margin);
the reference implementation uses 250.  Its exact value is immaterial to
every claim below. -/
noncomputable def MAXLOGX : ℝ := 250

/-- Modelled from the spec: `NUM_PRECISION` is declared in `constants.h`,
which is not under `src/`.  Per §6 it is the tolerance of the
"step hits the trust-region boundary" test; its exact value is immaterial
to every claim below. -/
noncomputable def NUM_PRECISION : ℝ := 1 / 10 ^ 12

/-- Modelled from the spec: `dot` from `utils.c` (component C1, "dot
products"): `dot(v, w, n) = ∑ v[i]·w[i]`. -/
noncomputable def dot {n : ℕ} (v w : Fin n → ℝ) : ℝ := ∑ i, v i * w i

/-- Modelled from the spec: `didot` from `utils.c` (dot product of a
`double` vector with an `int` vector). -/
noncomputable def didot {n : ℕ} (v : Fin n → ℝ) (w : Fin n → ℤ) : ℝ := ∑ i, v i * (w i : ℝ)

/-- Modelled from the spec: `sumint` from `utils.c` (sum of an `int`
array). -/
def sumint {n : ℕ} (v : Fin n → ℤ) : ℤ := ∑ i, v i

/-- Modelled from the spec: `sum` from `utils.c` (sum of a `double`
array). -/
noncomputable def rsum {n : ℕ} (v : Fin n → ℝ) : ℝ := ∑ i, v i

/-- Modelled from the spec: `MatrixVectorMult` from `utils.c`:
`(H·v)[i] = ∑_j H[i][j]·v[j]`. -/
noncomputable def matVec {n : ℕ} (H : Fin n → Fin n → ℝ) (v : Fin n → ℝ) : Fin n → ℝ :=
  fun i => dot (H i) v

/-- Modelled from the spec: `norm` from `utils.c`, the Euclidean norm. -/
noncomputable def normV {n : ℕ} (v : Fin n → ℝ) : ℝ := Real.sqrt (dot v v)

/-- Modelled from the spec: `FindNonZero` from `utils.c` returns the index
of "the unique column with `A[i][j*] ≠ 0`" (§4.3); modelled as the first
index holding a non-zero entry. -/
def findNonZero {n : ℕ} (v : Fin (n + 1) → ℤ) : Fin (n + 1) :=
  (((List.finRange (n + 1)).find? fun j => decide (v j ≠ 0)).getD 0)

/-- Modelled from the spec: `choleskyDecomposition`/`choleskySolve` from
`utils.c` (§4.5): the in-place decomposition "reports failure if any pivot
is non-positive", which for the symmetric input matrix happens exactly when
it is not positive definite; on success the back/forward substitution
returns the solution of `Hes · pB = Grad`, i.e. `Hes⁻¹ · Grad`. -/
noncomputable def cholSolve {n : ℕ} (H : Fin n → Fin n → ℝ) (b : Fin n → ℝ) :
    Option (Fin n → ℝ) :=
  if (Matrix.of H).PosDef then some ((Matrix.of H)⁻¹.mulVec b) else none

/-- The per-complex exponent `logx_j = −G[j] + ⟨λ, AT[j]⟩` computed by
`getx` (CalcConc.c line 294). -/
noncomputable def logxv {S T : ℕ} (lam : Fin S → ℝ) (G : Fin T → ℝ)
    (AT : Fin T → Fin S → ℤ) : Fin T → ℝ :=
  fun j => -G j + didot lam (AT j)

/-- The loop body of `getx` (CalcConc.c lines 293–299), traversing the
still-unprocessed complex indices in order.  On the first overflowing index
the function stops, reporting failure and returning the buffer as updated
so far; otherwise every visited slot is overwritten with `exp(logx_j)`. -/
noncomputable def getxGo {S T : ℕ} (lam : Fin S → ℝ) (G : Fin T → ℝ)
    (AT : Fin T → Fin S → ℤ) : List (Fin T) → (Fin T → ℝ) → (Fin T → ℝ) × Bool
  | [], x => (x, true)
  | j :: rest, x =>
    if MAXLOGX < logxv lam G AT j then (x, false)
    else getxGo lam G AT rest (Function.update x j (Real.exp (logxv lam G AT j)))

/-- `getx` (CalcConc.c lines 289–302).  `x` is the caller's buffer; the
returned pair is the buffer after the call together with the C return value
(`true` = 1, no overflow; `false` = 0, overflow). -/
noncomputable def getxRun {S T : ℕ} (x : Fin T → ℝ) (lam : Fin S → ℝ)
    (G : Fin T → ℝ) (AT : Fin T → Fin S → ℤ) : (Fin T → ℝ) × Bool :=
  getxGo lam G AT (List.finRange T) x

/-- `getGrad` (CalcConc.c lines 309–314): `Grad[i] = −x0[i] + ⟨x, A[i,·]⟩`. -/
noncomputable def getGrad {S T : ℕ} (x0 : Fin S → ℝ) (x : Fin T → ℝ)
    (A : Fin S → Fin T → ℤ) : Fin S → ℝ :=
  fun i => -x0 i + didot x (A i)

/-- `getHes` (CalcConc.c lines 323–348): the upper triangle (`m ≤ n`) is
computed as `⟨x, A[m,·]·A[n,·]⟩` and the strict lower triangle is copied
from the upper one. -/
noncomputable def getHes {S T : ℕ} (x : Fin T → ℝ) (A : Fin S → Fin T → ℤ) :
    Fin S → Fin S → ℝ :=
  fun m n =>
    if m.val ≤ n.val then dot x fun j => (A m j : ℝ) * (A n j : ℝ)
    else dot x fun j => (A n j : ℝ) * (A m j : ℝ)

/-- `CheckTol` (CalcConc.c lines 669–678) succeeds (returns 1) exactly when
every gradient entry meets its absolute tolerance. -/
def CheckTol {S : ℕ} (Grad AbsTol : Fin S → ℝ) : Prop :=
  ∀ i, |Grad i| ≤ AbsTol i

/-- The Cauchy direction computed in `getSearchDir` (CalcConc.c lines
447–470): `pU = (⟨Grad,Grad⟩ / ⟨Grad, Hes·Grad⟩) · (−Grad)`. -/
noncomputable def cauchyU {S : ℕ} (Grad : Fin S → ℝ) (Hes : Fin S → Fin S → ℝ) :
    Fin S → ℝ :=
  fun i => dot Grad Grad / dot Grad (matVec Hes Grad) * (-Grad i)

/-- `getSearchDir` (CalcConc.c lines 367–538).  Returns the step `p`
together with the C return code 1–6 (the `RunStats` classification):
1 pure Newton, 2 Cauchy hitting the boundary, 3 dogleg, 4 Cholesky failure
forcing a Cauchy step, 5 harmless Cholesky failure, 6 failed dogleg root
selection. -/
noncomputable def getSearchDir {S : ℕ} (Grad : Fin S → ℝ)
    (Hes : Fin S → Fin S → ℝ) (delta : ℝ) : (Fin S → ℝ) × ℕ :=
  let delta2 := delta ^ 2
  match cholSolve Hes Grad with
  | some sol =>
    let pB : Fin S → ℝ := fun i => -sol i
    let pB2 := dot pB pB
    if pB2 ≤ delta2 then (pB, 1)
    else
      let pU := cauchyU Grad Hes
      let pU2 := dot pU pU
      if delta2 ≤ pU2 then ((fun i => Real.sqrt (delta2 / pU2) * pU i), 2)
      else
        let pBpU := dot pB pU
        let a := pB2 + pU2 - 2 * pBpU
        let b := 2 * (pBpU - pU2)
        let c := pU2 - delta2
        let sgnb : ℝ := if b < 0 then -1 else 1
        let q := -0.5 * (b + sgnb * Real.sqrt (b * b - 4 * a * c))
        let x1 := q / a
        let x2 := c / q
        if 0 ≤ x2 ∧ x2 ≤ 1 then ((fun i => pU i + x2 * (pB i - pU i)), 3)
        else if 0 ≤ x1 ∧ x1 ≤ 1 then ((fun i => pU i + x1 * (pB i - pU i)), 3)
        else (pU, 6)
  | none =>
    let pU := cauchyU Grad Hes
    let pU2 := dot pU pU
    if delta2 ≤ pU2 then ((fun i => Real.sqrt (delta2 / pU2) * pU i), 5)
    else (pU, 4)

/-- Steps 2–4 of the dogleg decision as worded in §4.6 of the spec:
the Cauchy step scaled to the boundary (classification 2, or 5 when the
Newton step is unavailable), the forced Cauchy step (4), and the dogleg
interpolation preferring the root `c/q` over `q/a`, falling back to `pU`
with classification 6 when neither root lies in `[0,1]`. -/
noncomputable def sdSteps234 {S : ℕ} (pBq : Option (Fin S → ℝ))
    (pU : Fin S → ℝ) (pU2 delta2 : ℝ) : (Fin S → ℝ) × ℕ :=
  if delta2 ≤ pU2 then
    ((fun i => Real.sqrt (delta2 / pU2) * pU i),
      match pBq with | some _ => 2 | none => 5)
  else
    match pBq with
    | none => (pU, 4)
    | some pB =>
      let pB2 := dot pB pB
      let pBpU := dot pB pU
      let a := pB2 + pU2 - 2 * pBpU
      let b := 2 * (pBpU - pU2)
      let c := pU2 - delta2
      let sgnb : ℝ := if b < 0 then -1 else 1
      let q := -0.5 * (b + sgnb * Real.sqrt (b * b - 4 * a * c))
      if 0 ≤ c / q ∧ c / q ≤ 1 then
        ((fun i => pU i + c / q * (pB i - pU i)), 3)
      else if 0 ≤ q / a ∧ q / a ≤ 1 then
        ((fun i => pU i + q / a * (pB i - pU i)), 3)
      else (pU, 6)

/-- The dogleg decision as worded in the spec (§4.6, steps 1–4): try the
pure Newton step first, otherwise hand over to steps 2–4. -/
noncomputable def searchDirSpec {S : ℕ} (Grad : Fin S → ℝ)
    (Hes : Fin S → Fin S → ℝ) (delta : ℝ) : (Fin S → ℝ) × ℕ :=
  let delta2 := delta ^ 2
  let pU := cauchyU Grad Hes
  let pU2 := dot pU pU
  match cholSolve Hes Grad with
  | some sol =>
    let pB : Fin S → ℝ := fun i => -sol i
    if dot pB pB ≤ delta2 then (pB, 1)
    else sdSteps234 (some pB) pU pU2 delta2
  | none => sdSteps234 none pU pU2 delta2

/-- `getRho` (CalcConc.c lines 548–595): the ratio of actual to predicted
reduction, evaluated at the trial point `λ + p`; the trial mole fractions
are written into a freshly allocated buffer (modelled as the zero
function).  An overflow in the trial evaluation yields `ρ = −1`. -/
noncomputable def getRho {S T : ℕ} (lam p Grad : Fin S → ℝ) (x : Fin T → ℝ)
    (Hes : Fin S → Fin S → ℝ) (x0 : Fin S → ℝ) (G : Fin T → ℝ)
    (AT : Fin T → Fin S → ℤ) : ℝ :=
  let negh := rsum x - dot lam x0
  let newlambda := fun i => lam i + p i
  let res := getxRun (fun _ => 0) newlambda G AT
  if res.2 then
    let NewNegh := rsum res.1 - dot newlambda x0
    let pHp := dot p (matVec Hes p)
    (negh - NewNegh) / (-dot Grad p - pHp / 2)
  else -1

/-- One overflow-checked perturbation attempt inside `PerturbLambda`
(CalcConc.c lines 646–652): draw `λ'[i] = λ[i] + s·2·(u−0.5)` using the
next `numSS` stream values, test it with `getx` on a scratch buffer, and
on failure halve the scale and retry with the rest of the fuel.  Returns
the perturbed λ together with the advanced stream cursor, or `none` when
the fuel is exhausted (the C loop is unbounded). -/
noncomputable def perturbAux {S T : ℕ} (G : Fin T → ℝ)
    (AT : Fin T → Fin S → ℤ) (lam : Fin S → ℝ) (u : ℕ → ℝ) :
    ℕ → ℝ → ℕ → Option ((Fin S → ℝ) × ℕ)
  | _, _, 0 => none
  | ridx, s, fuel + 1 =>
    let newlambda := fun i : Fin S => lam i + s * 2 * (u (ridx + i.val) - 0.5)
    if (getxRun (fun _ => 0) newlambda G AT).2 then some (newlambda, ridx + S)
    else perturbAux G AT lam u (ridx + S) (s / 2) fuel

/-- `PerturbLambda` terminates on the given inputs: some amount of fuel
suffices for the retry loop of CalcConc.c lines 646–652 to find an
overflow-free perturbation. -/
def PerturbTerminates {S T : ℕ} (G : Fin T → ℝ) (AT : Fin T → Fin S → ℤ)
    (lam : Fin S → ℝ) (u : ℕ → ℝ) (ridx : ℕ) (s : ℝ) : Prop :=
  ∃ fuel r, perturbAux G AT lam u ridx s fuel = some r

/-- The uniform initial value `λ₀` of `getInitialGuess` (CalcConc.c lines
256–264): the running minimum over all complexes of
`(MaxLogx + G[j]) / ∑_i AT[j][i]` with `MaxLogx = 1`, seeded with the value
at `j = 0`. -/
noncomputable def initLambdaVal {S T : ℕ} (G : Fin (T + 1) → ℝ)
    (AT : Fin (T + 1) → Fin S → ℤ) : ℝ :=
  (((List.finRange (T + 1)).map fun j => (1 + G j) / (sumint (AT j) : ℝ)).foldl
    min ((1 + G 0) / (sumint (AT 0) : ℝ)))

/-- `getInitialGuess` (CalcConc.c lines 247–282): assign the uniform `λ₀`
to every entry, perturb the vector when `rand_seed ≠ 0` (consuming the
stream), and finally override the entries of monomers with `sumint(A[i]) = 1`
with the analytic value `log(x0[i]) + G[j*]`.  Returns the resulting λ
together with the advanced stream cursor, or `none` when the perturbation
fuel runs out. -/
noncomputable def getInitialGuessF {S T : ℕ} (x0 : Fin S → ℝ)
    (G : Fin (T + 1) → ℝ) (AT : Fin (T + 1) → Fin S → ℤ)
    (A : Fin S → Fin (T + 1) → ℤ) (PerturbScale : ℝ) (rs : ℕ) (u : ℕ → ℝ)
    (ridx pfuel : ℕ) : Option ((Fin S → ℝ) × ℕ) :=
  let lam0 : Fin S → ℝ := fun _ => initLambdaVal G AT
  let res : Option ((Fin S → ℝ) × ℕ) :=
    if rs ≠ 0 then perturbAux G AT lam0 u ridx PerturbScale pfuel
    else some (lam0, ridx)
  match res with
  | none => none
  | some (lam1, ridx1) =>
    some
      ((fun i =>
        if sumint (A i) = 1 then Real.log (x0 i) + G (findNonZero (A i))
        else lam1 i),
        ridx1)

/-- Modelled from the spec: `GetRandSeed` from `utils.c` — "seed the RNG
from the caller-supplied seed (or, if zero, from a time/process-derived
source)" (§4.7); the time-derived value is the model parameter `sysSeed`. -/
def getRandSeed (seed sysSeed : ℕ) : ℕ :=
  if seed ≠ 0 then seed else sysSeed

/-- The inputs of `CalcConc` (CalcConc.c lines 68–71), named as in the C
signature.  `sysSeed` stands in for the time/process-derived seed used when
`seed = 0`. -/
structure CCParams (S T : ℕ) where
  A : Fin S → Fin T → ℤ
  G : Fin T → ℝ
  x0 : Fin S → ℝ
  MaxIters : ℕ
  tol : ℝ
  deltaBar : ℝ
  eta : ℝ
  kT : ℝ
  MaxNoStep : ℕ
  MaxTrial : ℕ
  PerturbScale : ℝ
  MolesWaterPerLiter : ℝ
  seed : ℕ
  sysSeed : ℕ

/-- The transpose `AT` computed once per invocation by `IntTranspose`
(CalcConc.c line 113). -/
def ATof {S T : ℕ} (cfg : CCParams S T) : Fin T → Fin S → ℤ :=
  fun j i => cfg.A i j

/-- The absolute tolerances `AbsTol[i] = tol · x0[i]` (CalcConc.c lines
108–110). -/
noncomputable def absTolOf {S T : ℕ} (cfg : CCParams S T) : Fin S → ℝ :=
  fun i => cfg.tol * cfg.x0 i

/-- The state of the inner (trust-region) loop of `CalcConc`. -/
structure InnerState (S T : ℕ) where
  lambda : Fin S → ℝ
  x : Fin T → ℝ
  Grad : Fin S → ℝ
  delta : ℝ
  iters : ℕ
  nNoStep : ℕ
  stats : Fin 6 → ℕ

/-- The trust-radius update of CalcConc.c lines 165–170: quarter the radius
when `ρ < 0.25`; double it (capped at `deltaBar`) when `ρ > 0.75` and the
step length is within `NUM_PRECISION` of the radius; otherwise leave it. -/
noncomputable def updateDelta (rho np delta deltaBar : ℝ) : ℝ :=
  if rho < 0.25 then delta / 4
  else if 0.75 < rho ∧ |np - delta| < NUM_PRECISION then min (2 * delta) deltaBar
  else delta

/-- One iteration of the inner trust-region loop (CalcConc.c lines
152–191): build the Hessian, pick the search direction (recording its
classification in `RunStats`), compute ρ, adjust the radius, accept or
reject the step, and recompute `x` and the gradient — a failure of this
final `getx` is the fatal overflow `exit` of line 183, modelled as `none`. -/
noncomputable def innerStep {S T : ℕ} (cfg : CCParams S (T + 1))
    (st : InnerState S (T + 1)) : Option (InnerState S (T + 1)) :=
  let Hes := getHes st.x cfg.A
  let pr := getSearchDir st.Grad Hes st.delta
  let stats1 : Fin 6 → ℕ :=
    fun k => if k.val = pr.2 - 1 then st.stats k + 1 else st.stats k
  let rho := getRho st.lambda pr.1 st.Grad st.x Hes cfg.x0 cfg.G (ATof cfg)
  let delta1 := updateDelta rho (normV pr.1) st.delta cfg.deltaBar
  let lam1 := if cfg.eta < rho then (fun i => st.lambda i + pr.1 i) else st.lambda
  let nns1 := if cfg.eta < rho then 0 else st.nNoStep + 1
  let xr := getxRun st.x lam1 cfg.G (ATof cfg)
  if xr.2 then
    some ⟨lam1, xr.1, getGrad cfg.x0 xr.1 cfg.A, delta1, st.iters + 1, nns1, stats1⟩
  else none

/-- The inner trust-region loop (CalcConc.c lines 152–191), running while
`iters < MaxIters`, the gradient tolerance fails and `nNoStep < MaxNoStep`.
Each pass increments `iters`, so fuel `MaxIters` makes the recursion
coincide with the C loop. -/
noncomputable def innerLoop {S T : ℕ} (cfg : CCParams S (T + 1)) :
    ℕ → InnerState S (T + 1) → Option (InnerState S (T + 1))
  | 0, st => some st
  | fuel + 1, st =>
    if st.iters < cfg.MaxIters ∧ ¬CheckTol st.Grad (absTolOf cfg) ∧
        st.nNoStep < cfg.MaxNoStep then
      match innerStep cfg st with
      | none => none
      | some st1 => innerLoop cfg fuel st1
    else some st

/-- The state carried between trials of the outer loop of `CalcConc`. -/
structure TrialState (S T : ℕ) where
  x : Fin T → ℝ
  Grad : Fin S → ℝ
  lambda : Fin S → ℝ
  nTrial : ℕ
  ridx : ℕ
  stats : Fin 6 → ℕ
  rand_seed : ℕ

/-- The possible outcomes of a `CalcConc` fragment: a fatal
`exit(ERR_OVERFLOW)`, exhaustion of the perturbation fuel (a model
artifact: the C perturbation loop is unbounded), or a normal result. -/
inductive Step (α : Type) where
  | fatal : Step α
  | noFuel : Step α
  | ok : α → Step α

/-- One trial of the outer loop of `CalcConc` (CalcConc.c lines 119–195):
reseed the RNG on the second trial, build the initial guess (perturbing
when `rand_seed ≠ 0`), compute `x` (overflow here is the fatal exit of
line 132), compute the gradient, reset the inner counters and statistics,
run the inner loop, and increment `nTrial`. -/
noncomputable def trialStep {S T : ℕ} (cfg : CCParams S (T + 1)) (u : ℕ → ℝ)
    (pfuel : ℕ) (st : TrialState S (T + 1)) : Step (TrialState S (T + 1)) :=
  let rs := if st.nTrial = 1 then getRandSeed cfg.seed cfg.sysSeed else st.rand_seed
  match getInitialGuessF cfg.x0 cfg.G (ATof cfg) cfg.A cfg.PerturbScale rs u
      st.ridx pfuel with
  | none => Step.noFuel
  | some (lam, ridx1) =>
    let xr := getxRun st.x lam cfg.G (ATof cfg)
    if xr.2 then
      match innerLoop cfg cfg.MaxIters
          ⟨lam, xr.1, getGrad cfg.x0 xr.1 cfg.A, 0.99 * cfg.deltaBar, 0, 0,
            fun _ => 0⟩ with
      | none => Step.fatal
      | some ist =>
        Step.ok ⟨ist.x, ist.Grad, ist.lambda, st.nTrial + 1, ridx1, ist.stats, rs⟩
    else Step.fatal

/-- The outer (trial) loop of `CalcConc` (CalcConc.c lines 119–195),
running while the gradient tolerance fails and `nTrial < MaxTrial`.  Each
pass increments `nTrial`, so fuel `MaxTrial` makes the recursion coincide
with the C loop. -/
noncomputable def trialLoop {S T : ℕ} (cfg : CCParams S (T + 1)) (u : ℕ → ℝ)
    (pfuel : ℕ) : ℕ → TrialState S (T + 1) → Step (TrialState S (T + 1))
  | 0, st => Step.ok st
  | fuel + 1, st =>
    if ¬CheckTol st.Grad (absTolOf cfg) ∧ st.nTrial < cfg.MaxTrial then
      match trialStep cfg u pfuel st with
      | Step.fatal => Step.fatal
      | Step.noFuel => Step.noFuel
      | Step.ok st1 => trialLoop cfg u pfuel fuel st1
    else Step.ok st

/-- The state of `CalcConc` just before the outer loop (CalcConc.c lines
115–118): `nTrial = 0`, the gradient initialized to `AbsTol + 1` so the
tolerance test fails, the caller's (uninitialized) `x` buffer, an arbitrary
`λ` buffer, and `rand_seed = 0`. -/
noncomputable def initTrialState {S T : ℕ} (x_init : Fin T → ℝ) (AbsTol : Fin S → ℝ) :
    TrialState S T :=
  ⟨x_init, fun i => AbsTol i + 1, fun _ => 0, 0, 0, fun _ => 0, 0⟩

/-- The free energy computed by CalcConc.c lines 197–210 from the final
mole fractions:
`kT · MolesWaterPerLiter · (∑_i x0[i](1 − log x0[i]) + ∑_{j : x_j > 0} x_j(log x_j + G[j] − 1))`.
The C function stores it in the local variable `FreeEnergy` and never uses
it again. -/
noncomputable def freeEnergy {S T : ℕ} (x : Fin T → ℝ) (G : Fin T → ℝ)
    (x0 : Fin S → ℝ) (kT MolesWaterPerLiter : ℝ) : ℝ :=
  kT * MolesWaterPerLiter *
    ((∑ i, x0 i * (1 - Real.log (x0 i))) +
      ∑ j, if 0 < x j then x j * (Real.log (x j) + G j - 1) else 0)

/-- `CalcConc` (CalcConc.c lines 68–234).  The function communicates to its
caller exactly the final contents of the `x` buffer and the `int` return
value `1`/`0` of lines 228–233 (`0` iff `nTrial == MaxTrial` at exit);
the locals `FreeEnergy` and `RunStats` are dropped when the function
returns. -/
noncomputable def CalcConc {S T : ℕ} (x_init : Fin (T + 1) → ℝ)
    (cfg : CCParams S (T + 1)) (u : ℕ → ℝ) (pfuel : ℕ) :
    Step ((Fin (T + 1) → ℝ) × Bool) :=
  match trialLoop cfg u pfuel cfg.MaxTrial (initTrialState x_init (absTolOf cfg)) with
  | Step.fatal => Step.fatal
  | Step.noFuel => Step.noFuel
  | Step.ok st => Step.ok (st.x, decide ¬st.nTrial = cfg.MaxTrial)

/-- A concrete one-monomer, one-complex instance (`numSS = numTotal = 1`,
`A = [[1]]`, `G = [0]`, `x0 = [1]`, `tol = 1/2`), parametrized by
`MaxTrial`.  Its first trial converges immediately: the inert-species
override pins `λ = log 1 + 0 = 0`, giving `x = [1]` and a zero gradient. -/
noncomputable def cfg1 (MaxTrial : ℕ) : CCParams 1 1 :=
  ⟨![![1]], ![0], ![1], 1, 1 / 2, 1, 1 / 8, 1, 5, MaxTrial, 1, 1, 0, 1⟩

/-- A constant random stream (every `genrand_real1()` draw returns 1, the
upper endpoint of the generator's closed range `[0,1]`). -/
noncomputable def uOne : ℕ → ℝ := fun _ => 1

/-- The trial-loop state of the `cfg1` run just before the outer loop. -/
noncomputable def stA : TrialState 1 1 := initTrialState ![0] (absTolOf (cfg1 1))

/-- The trial-loop state of the `cfg1` run after its first (converged)
trial. -/
noncomputable def stB : TrialState 1 1 := ⟨![1], ![0], ![0], 1, 0, fun _ => 0, 0⟩

/-- A concrete inner-loop state used to exercise a trust-region iteration
whose trial step overflows: the current `λ = [200]` is overflow-free, and
the gradient `[-60]` makes the Newton step `p = [60]`, so the trial point
`λ + p = [260]` overflows. -/
noncomputable def stI : InnerState 1 1 := ⟨![200], ![1], ![-60], 100, 0, 0, fun _ => 0⟩

/-- A concrete inner-loop state whose gradient already satisfies the
tolerance of `cfg1`, so the inner loop performs no iteration. -/
noncomputable def stJ : InnerState 1 1 := ⟨![0], ![1], ![0], 1 / 2, 0, 0, fun _ => 0⟩

theorem getxGo_ok_iff {S T : ℕ} (lam : Fin S → ℝ) (G : Fin T → ℝ)
    (AT : Fin T → Fin S → ℤ) (L : List (Fin T)) (x : Fin T → ℝ) :
    (getxGo lam G AT L x).2 = true ↔ ∀ j ∈ L, logxv lam G AT j ≤ MAXLOGX := by
  induction L generalizing x with
  | nil => simp [getxGo]
  | cons j L ih =>
    by_cases h : MAXLOGX < logxv lam G AT j
    · simp only [getxGo, if_pos h, List.mem_cons]
      constructor
      · intro hfalse
        exact absurd hfalse (by simp)
      · intro hall
        exact absurd (hall j (Or.inl rfl)) (not_le.mpr h)
    · simp only [getxGo, if_neg h, List.mem_cons, ih]
      constructor
      · intro hall k hk
        rcases hk with hk | hk
        · exact hk ▸ not_lt.mp h
        · exact hall k hk
      · intro hall k hk
        exact hall k (Or.inr hk)

theorem getxGo_ok_val {S T : ℕ} (lam : Fin S → ℝ) (G : Fin T → ℝ)
    (AT : Fin T → Fin S → ℤ) (L : List (Fin T)) (x : Fin T → ℝ)
    (hok : ∀ j ∈ L, logxv lam G AT j ≤ MAXLOGX) (k : Fin T) :
    (getxGo lam G AT L x).1 k =
      if k ∈ L then Real.exp (logxv lam G AT k) else x k := by
  induction L generalizing x with
  | nil => simp [getxGo]
  | cons j L ih =>
    have hj : ¬MAXLOGX < logxv lam G AT j :=
      not_lt.mpr (hok j (List.mem_cons_self j L))
    rw [getxGo, if_neg hj, ih _ fun m hm => hok m (List.mem_cons_of_mem j hm)]
    by_cases hkL : k ∈ L
    · simp [hkL, List.mem_cons]
    · by_cases hkj : k = j
      · subst hkj
        simp [hkL, Function.update_same]
      · simp [hkL, hkj, Function.update_noteq hkj, List.mem_cons]

theorem getxGo_bad {S T : ℕ} (lam : Fin S → ℝ) (G : Fin T → ℝ)
    (AT : Fin T → Fin S → ℤ) (L1 L2 : List (Fin T)) (j0 : Fin T)
    (x : Fin T → ℝ) (hbad : MAXLOGX < logxv lam G AT j0)
    (hgood : ∀ k ∈ L1, logxv lam G AT k ≤ MAXLOGX) :
    getxGo lam G AT (L1 ++ j0 :: L2) x =
      ((fun k => if k ∈ L1 then Real.exp (logxv lam G AT k) else x k), false) := by
  induction L1 generalizing x with
  | nil =>
    simp only [List.nil_append, getxGo, if_pos hbad, List.not_mem_nil]
    exact Prod.ext rfl rfl
  | cons a L1 ih =>
    have ha : ¬MAXLOGX < logxv lam G AT a :=
      not_lt.mpr (hgood a (List.mem_cons_self a L1))
    rw [List.cons_append, getxGo, if_neg ha,
      ih _ fun m hm => hgood m (List.mem_cons_of_mem a hm)]
    refine Prod.ext (funext fun k => ?_) rfl
    by_cases hkL : k ∈ L1
    · simp [hkL, List.mem_cons]
    · by_cases hka : k = a
      · subst hka
        simp [hkL, Function.update_same]
      · simp [hkL, hka, Function.update_noteq hka, List.mem_cons]

theorem mem_take_finRange {T m : ℕ} (k : Fin T) :
    k ∈ (List.finRange T).take m ↔ (k : ℕ) < m := by
  constructor
  · intro h
    obtain ⟨i, hi, hik⟩ := List.mem_iff_getElem.mp h
    have h2 := hi
    simp only [List.length_take, List.length_finRange] at h2
    rw [List.getElem_take, List.getElem_finRange] at hik
    subst hik
    simp only [Fin.coe_cast]
    omega
  · intro h
    refine List.mem_iff_getElem.mpr ⟨k.val, ?_, ?_⟩
    · simp only [List.length_take, List.length_finRange]
      omega
    · rw [List.getElem_take, List.getElem_finRange]
      simp [Fin.ext_iff]

theorem finRange_split {T : ℕ} (j0 : Fin T) :
    List.finRange T =
      (List.finRange T).take j0.val ++ j0 :: (List.finRange T).drop (j0.val + 1) := by
  have hdrop : (List.finRange T).drop j0.val =
      j0 :: (List.finRange T).drop (j0.val + 1) := by
    rw [List.drop_eq_getElem_cons (by simp [j0.isLt])]
    simp [List.getElem_finRange, Fin.ext_iff]
  rw [← hdrop, List.take_append_drop]

/-- C4: `getx` signals overflow (returns 0) iff some complex `j` has
`−G[j] + ⟨λ, AT[j]⟩ > MAXLOGX`, and on success every output slot holds
`x[j] = exp(−G[j] + ⟨λ, AT[j]⟩)`.  (The source only reads `lambda` and `G`,
so the embedding is a pure function of them — they are never modified.) -/
theorem getx_overflow_iff_and_values {S T : ℕ} (x : Fin T → ℝ)
    (lam : Fin S → ℝ) (G : Fin T → ℝ) (AT : Fin T → Fin S → ℤ) :
    ((getxRun x lam G AT).2 = false ↔ ∃ j, MAXLOGX < -G j + didot lam (AT j)) ∧
    ((getxRun x lam G AT).2 = true →
      ∀ j, (getxRun x lam G AT).1 j = Real.exp (-G j + didot lam (AT j))) := by
  have h := getxGo_ok_iff lam G AT (List.finRange T) x
  refine ⟨?_, ?_⟩
  · constructor
    · intro hf
      by_contra hex
      push_neg at hex
      have ht : (getxRun x lam G AT).2 = true :=
        h.mpr fun j _ => hex j
      rw [ht] at hf
      exact Bool.true_eq_false.mp hf
    · rintro ⟨j, hj⟩
      cases hb : (getxRun x lam G AT).2 with
      | false => rfl
      | true => exact absurd (h.mp hb j (List.mem_finRange j)) (not_le.mpr hj)
  · intro ht j
    have hv := getxGo_ok_val lam G AT (List.finRange T) x (h.mp ht) j
    rw [show (getxRun x lam G AT).1 = (getxGo lam G AT (List.finRange T) x).1 from rfl,
      hv, if_pos (List.mem_finRange j)]
    rfl

theorem getx_spec_eval :
    (getxRun ![(5 : ℝ)] ![(0 : ℝ)] ![(0 : ℝ)] ![![1]]).2 = true := by
  refine (getxGo_ok_iff _ _ _ _ _).mpr fun j _ => ?_
  fin_cases j
  norm_num [logxv, didot, MAXLOGX, Fin.sum_univ_one]

theorem getx_overflow_iff_and_values_witness :
    (getxRun ![(5 : ℝ)] ![(0 : ℝ)] ![(0 : ℝ)] ![![1]]).2 = true ∧
    (getxRun ![(5 : ℝ)] ![(0 : ℝ)] ![(0 : ℝ)] ![![1]]).1 0 = Real.exp 0 := by
  refine ⟨getx_spec_eval, ?_⟩
  have hval :=
    (getx_overflow_iff_and_values ![(5 : ℝ)] ![(0 : ℝ)] ![(0 : ℝ)] ![![1]]).2
      getx_spec_eval 0
  rw [hval]
  norm_num [didot, Fin.sum_univ_one]

/-- C10: when `getx` overflows at the (first overflowing) complex index
`j0`, the slots `x[0..j0−1]` have already been overwritten with the new
mole fractions when the failure is signalled, while the later slots keep
their previous contents — the caller's buffer is left holding a mixture of
old and new values. -/
theorem getx_partial_writes_on_overflow {S T : ℕ} (x : Fin T → ℝ)
    (lam : Fin S → ℝ) (G : Fin T → ℝ) (AT : Fin T → Fin S → ℤ) (j0 : Fin T)
    (hbad : MAXLOGX < -G j0 + didot lam (AT j0))
    (hgood : ∀ k : Fin T, (k : ℕ) < (j0 : ℕ) → -G k + didot lam (AT k) ≤ MAXLOGX) :
    getxRun x lam G AT =
      ((fun k : Fin T => if (k : ℕ) < (j0 : ℕ) then Real.exp (-G k + didot lam (AT k))
        else x k), false) := by
  have hres := getxGo_bad lam G AT ((List.finRange T).take j0.val)
    ((List.finRange T).drop (j0.val + 1)) j0 x hbad
    (fun k hk => hgood k ((mem_take_finRange k).mp hk))
  rw [show getxRun x lam G AT = getxGo lam G AT (List.finRange T) x from rfl,
    finRange_split j0, hres]
  refine Prod.ext (funext fun k => ?_) rfl
  show (if k ∈ (List.finRange T).take j0.val then Real.exp (logxv lam G AT k) else x k) =
    (if (k : ℕ) < (j0 : ℕ) then Real.exp (-G k + didot lam (AT k)) else x k)
  by_cases hk : (k : ℕ) < (j0 : ℕ)
  · rw [if_pos ((mem_take_finRange k).mpr hk), if_pos hk]
    rfl
  · rw [if_neg fun hmem => hk ((mem_take_finRange k).mp hmem), if_neg hk]

theorem getx_partial_writes_on_overflow_witness :
    (MAXLOGX < -(![(0 : ℝ), -300] 1) + didot ![(0 : ℝ)] (![![1], ![1]] 1)) ∧
    (getxRun ![(7 : ℝ), 7] ![(0 : ℝ)] ![(0 : ℝ), -300] ![![1], ![1]]).1 0 = Real.exp 0 ∧
    (getxRun ![(7 : ℝ), 7] ![(0 : ℝ)] ![(0 : ℝ), -300] ![![1], ![1]]).1 1 = 7 ∧
    (getxRun ![(7 : ℝ), 7] ![(0 : ℝ)] ![(0 : ℝ), -300] ![![1], ![1]]).2 = false := by
  have hbad : MAXLOGX < -(![(0 : ℝ), -300] 1) + didot ![(0 : ℝ)] (![![1], ![1]] 1) := by
    norm_num [didot, MAXLOGX, Fin.sum_univ_one]
  have hgood : ∀ k : Fin 2, (k : ℕ) < ((1 : Fin 2) : ℕ) →
      -(![(0 : ℝ), -300] k) + didot ![(0 : ℝ)] (![![1], ![1]] k) ≤ MAXLOGX := by
    intro k hk
    fin_cases k
    · norm_num [didot, MAXLOGX, Fin.sum_univ_one]
    · simp at hk
  have hres := getx_partial_writes_on_overflow ![(7 : ℝ), 7] ![(0 : ℝ)]
    ![(0 : ℝ), -300] ![![1], ![1]] 1 hbad hgood
  refine ⟨hbad, ?_, ?_, ?_⟩
  · rw [show (getxRun ![(7 : ℝ), 7] ![(0 : ℝ)] ![(0 : ℝ), -300] ![![1], ![1]]).1 0 =
      ((getxRun ![(7 : ℝ), 7] ![(0 : ℝ)] ![(0 : ℝ), -300] ![![1], ![1]]).1) 0 from rfl,
      hres]
    norm_num [didot, Fin.sum_univ_one]
  · rw [show (getxRun ![(7 : ℝ), 7] ![(0 : ℝ)] ![(0 : ℝ), -300] ![![1], ![1]]).1 1 =
      ((getxRun ![(7 : ℝ), 7] ![(0 : ℝ)] ![(0 : ℝ), -300] ![![1], ![1]]).1) 1 from rfl,
      hres]
    norm_num
  · rw [hres]

/-- C5: `getSearchDir` implements the dogleg decision of §4.6 exactly:
pure Newton step (code 1) when Cholesky succeeds and `‖pB‖² ≤ δ²`; the
Cauchy direction scaled to the boundary when `‖pU‖² ≥ δ²` (code 2, or 5
when Cholesky failed); `pU` itself when Cholesky failed with an interior
Cauchy point (code 4); otherwise the dogleg point `pU + α(pB − pU)` with
the root `α = c/q` preferred when it lies in `[0,1]`, else `α = q/a`, and
`pU` with code 6 when neither root does. -/
theorem getSearchDir_eq_spec {S : ℕ} (Grad : Fin S → ℝ)
    (Hes : Fin S → Fin S → ℝ) (delta : ℝ) :
    getSearchDir Grad Hes delta = searchDirSpec Grad Hes delta := by
  rw [getSearchDir, searchDirSpec]
  cases h : cholSolve Hes Grad with
  | none => dsimp only [sdSteps234]
  | some sol => dsimp only [sdSteps234]

theorem innerLoop_zero {S T : ℕ} (cfg : CCParams S (T + 1))
    (st : InnerState S (T + 1)) : innerLoop cfg 0 st = some st := rfl

theorem innerLoop_succ {S T : ℕ} (cfg : CCParams S (T + 1)) (fuel : ℕ)
    (st : InnerState S (T + 1)) :
    innerLoop cfg (fuel + 1) st =
      if st.iters < cfg.MaxIters ∧ ¬CheckTol st.Grad (absTolOf cfg) ∧
          st.nNoStep < cfg.MaxNoStep then
        match innerStep cfg st with
        | none => none
        | some st1 => innerLoop cfg fuel st1
      else some st := rfl

theorem trialLoop_zero {S T : ℕ} (cfg : CCParams S (T + 1)) (u : ℕ → ℝ)
    (pfuel : ℕ) (st : TrialState S (T + 1)) :
    trialLoop cfg u pfuel 0 st = Step.ok st := rfl

theorem trialLoop_succ {S T : ℕ} (cfg : CCParams S (T + 1)) (u : ℕ → ℝ)
    (pfuel fuel : ℕ) (st : TrialState S (T + 1)) :
    trialLoop cfg u pfuel (fuel + 1) st =
      if ¬CheckTol st.Grad (absTolOf cfg) ∧ st.nTrial < cfg.MaxTrial then
        match trialStep cfg u pfuel st with
        | Step.fatal => Step.fatal
        | Step.noFuel => Step.noFuel
        | Step.ok st1 => trialLoop cfg u pfuel fuel st1
      else Step.ok st := rfl

theorem updateDelta_pos_le {rho np delta deltaBar : ℝ} (hdB : 0 < deltaBar)
    (h0 : 0 < delta) (h1 : delta ≤ deltaBar) :
    0 < updateDelta rho np delta deltaBar ∧
      updateDelta rho np delta deltaBar ≤ deltaBar := by
  unfold updateDelta
  split_ifs with h2 h3
  · exact ⟨by linarith, by linarith⟩
  · exact ⟨lt_min (by linarith) hdB, min_le_right _ _⟩
  · exact ⟨h0, h1⟩

theorem innerStep_delta_bounds {S T : ℕ} (cfg : CCParams S (T + 1))
    (st st1 : InnerState S (T + 1)) (hdB : 0 < cfg.deltaBar)
    (h0 : 0 < st.delta) (h1 : st.delta ≤ cfg.deltaBar)
    (h : innerStep cfg st = some st1) :
    0 < st1.delta ∧ st1.delta ≤ cfg.deltaBar := by
  dsimp only [innerStep] at h
  split at h <;> split at h <;>
    first
      | (rw [Option.some.injEq] at h
         subst h
         exact updateDelta_pos_le hdB h0 h1)
      | exact absurd h (by simp)

theorem innerLoop_delta_bounds {S T : ℕ} (cfg : CCParams S (T + 1))
    (fuel : ℕ) (st st1 : InnerState S (T + 1)) (hdB : 0 < cfg.deltaBar)
    (h0 : 0 < st.delta) (h1 : st.delta ≤ cfg.deltaBar)
    (h : innerLoop cfg fuel st = some st1) :
    0 < st1.delta ∧ st1.delta ≤ cfg.deltaBar := by
  induction fuel generalizing st with
  | zero =>
    rw [innerLoop_zero, Option.some.injEq] at h
    subst h
    exact ⟨h0, h1⟩
  | succ fuel ih =>
    rw [innerLoop_succ] at h
    split at h
    · cases hs : innerStep cfg st with
      | none => rw [hs] at h; exact absurd h (by simp)
      | some st2 =>
        rw [hs] at h
        have hb := innerStep_delta_bounds cfg st st2 hdB h0 h1 hs
        exact ih st2 hb.1 hb.2 h
    · rw [Option.some.injEq] at h
      subst h
      exact ⟨h0, h1⟩

/-- C7: on every inner iteration the trust radius is updated by
`updateDelta` as a function of ρ alone — quartered when `ρ < 0.25`, set to
`min(2Δ, deltaBar)` when `ρ > 0.75` and `|‖p‖ − Δ| < NUM_PRECISION`,
unchanged otherwise — and consequently Δ stays positive and bounded by
`deltaBar` throughout a trial (whose initial radius `0.99·deltaBar` lies in
that range). -/
theorem trustRadius_update_rule_and_bounds {S T : ℕ} (cfg : CCParams S (T + 1))
    (fuel : ℕ) (st st1 : InnerState S (T + 1)) (hdB : 0 < cfg.deltaBar)
    (h0 : 0 < st.delta) (h1 : st.delta ≤ cfg.deltaBar)
    (hrun : innerLoop cfg fuel st = some st1) :
    (0 < st1.delta ∧ st1.delta ≤ cfg.deltaBar) ∧
    (0 < 0.99 * cfg.deltaBar ∧ 0.99 * cfg.deltaBar ≤ cfg.deltaBar) ∧
    (∀ rho np d : ℝ,
      (rho < 0.25 → updateDelta rho np d cfg.deltaBar = d / 4) ∧
      (0.25 ≤ rho → 0.75 < rho → |np - d| < NUM_PRECISION →
        updateDelta rho np d cfg.deltaBar = min (2 * d) cfg.deltaBar) ∧
      (0.25 ≤ rho → ¬(0.75 < rho ∧ |np - d| < NUM_PRECISION) →
        updateDelta rho np d cfg.deltaBar = d)) := by
  refine ⟨innerLoop_delta_bounds cfg fuel st st1 hdB h0 h1 hrun,
    ⟨by linarith, by linarith⟩, fun rho np d => ⟨?_, ?_, ?_⟩⟩
  · intro h2
    rw [updateDelta, if_pos h2]
  · intro h2 h3 h4
    rw [updateDelta, if_neg (not_lt.mpr h2), if_pos ⟨h3, h4⟩]
  · intro h2 h3
    rw [updateDelta, if_neg (not_lt.mpr h2), if_neg h3]

theorem innerLoop_stJ_eval : innerLoop (cfg1 1) 1 stJ = some stJ := by
  show innerLoop (cfg1 1) (0 + 1) stJ = some stJ
  rw [innerLoop_succ, if_neg]
  rintro ⟨-, h2, -⟩
  refine h2 fun i => ?_
  fin_cases i
  norm_num [stJ, cfg1, absTolOf]

theorem trustRadius_update_rule_and_bounds_witness :
    (0 < (cfg1 1).deltaBar ∧ 0 < stJ.delta ∧ stJ.delta ≤ (cfg1 1).deltaBar ∧
      innerLoop (cfg1 1) 1 stJ = some stJ) ∧
    (0 < stJ.delta ∧ stJ.delta ≤ (cfg1 1).deltaBar) := by
  have h1 : (0 : ℝ) < (cfg1 1).deltaBar := by norm_num [cfg1]
  have h2 : (0 : ℝ) < stJ.delta := by norm_num [stJ]
  have h3 : stJ.delta ≤ (cfg1 1).deltaBar := by norm_num [stJ, cfg1]
  exact ⟨⟨h1, h2, h3, innerLoop_stJ_eval⟩,
    (trustRadius_update_rule_and_bounds (cfg1 1) 1 stJ stJ h1 h2 h3
      innerLoop_stJ_eval).1⟩

theorem getRho_overflow {S T : ℕ} (lam p Grad : Fin S → ℝ) (x : Fin T → ℝ)
    (Hes : Fin S → Fin S → ℝ) (x0 : Fin S → ℝ) (G : Fin T → ℝ)
    (AT : Fin T → Fin S → ℤ)
    (hov : (getxRun (fun _ => 0) (fun i => lam i + p i) G AT).2 = false) :
    getRho lam p Grad x Hes x0 G AT = -1 := by
  dsimp only [getRho]
  rw [hov]
  simp

/-- C8: when the trial evaluation `x(λ + p)` inside the ρ computation
overflows, `getRho` returns −1 and (for any `eta ∈ (0, 1/4)`) the driver
rejects the step: `λ` is unchanged, `nNoStep` is incremented, and the
iteration completes normally (no fatal overflow arises from the trial
evaluation — the fatal recomputation happens at the unchanged, still
feasible `λ`). -/
theorem trialOverflow_rejected_and_loop_continues {S T : ℕ}
    (cfg : CCParams S (T + 1)) (st : InnerState S (T + 1))
    (heta0 : 0 < cfg.eta) (heta1 : cfg.eta < 1 / 4)
    (hov : (getxRun (fun _ => 0)
      (fun i => st.lambda i + (getSearchDir st.Grad (getHes st.x cfg.A) st.delta).1 i)
      cfg.G (ATof cfg)).2 = false)
    (hfeas : (getxRun st.x st.lambda cfg.G (ATof cfg)).2 = true) :
    getRho st.lambda (getSearchDir st.Grad (getHes st.x cfg.A) st.delta).1
      st.Grad st.x (getHes st.x cfg.A) cfg.x0 cfg.G (ATof cfg) = -1 ∧
    ∃ st1, innerStep cfg st = some st1 ∧ st1.lambda = st.lambda ∧
      st1.nNoStep = st.nNoStep + 1 := by
  have hrho := getRho_overflow st.lambda
    (getSearchDir st.Grad (getHes st.x cfg.A) st.delta).1 st.Grad st.x
    (getHes st.x cfg.A) cfg.x0 cfg.G (ATof cfg) hov
  refine ⟨hrho, ?_⟩
  dsimp only [innerStep]
  rw [hrho]
  have hno : ¬cfg.eta < (-1 : ℝ) := by linarith
  rw [if_neg hno, if_neg hno, hfeas, if_pos rfl]
  exact ⟨_, rfl, rfl, rfl⟩

theorem cholSolve_dim1 (H : Fin 1 → Fin 1 → ℝ) (b : Fin 1 → ℝ)
    (h : 0 < H 0 0) : cholSolve H b = some fun _ => b 0 / H 0 0 := by
  have hpd : (Matrix.of H).PosDef := by
    constructor
    · ext i j
      fin_cases i
      fin_cases j
      simp [Matrix.conjTranspose_apply]
    · intro v hv
      have hv0 : v 0 ≠ 0 := by
        intro h0
        exact hv (funext fun i => by fin_cases i; exact h0)
      have hcalc : Matrix.dotProduct (star v) ((Matrix.of H).mulVec v) =
          H 0 0 * (v 0 * v 0) := by
        simp [Matrix.dotProduct, Matrix.mulVec, Fin.sum_univ_one]
        ring
      rw [hcalc]
      exact mul_pos h (mul_self_pos.mpr hv0)
  rw [cholSolve, if_pos hpd]
  congr 1
  funext i
  fin_cases i
  rw [Matrix.inv_def, Matrix.adjugate_fin_one, Matrix.det_fin_one]
  simp [Matrix.mulVec, Matrix.dotProduct, Fin.sum_univ_one, Matrix.one_apply,
    Ring.inverse_eq_inv]
  ring

theorem getHes_stI_eval : getHes stI.x (cfg1 1).A = fun _ _ => (1 : ℝ) := by
  funext m n
  fin_cases m
  fin_cases n
  norm_num [getHes, dot, Fin.sum_univ_one, stI, cfg1]

theorem getSearchDir_stI_eval :
    getSearchDir stI.Grad (getHes stI.x (cfg1 1).A) stI.delta = (![(60 : ℝ)], 1) := by
  rw [getHes_stI_eval, getSearchDir,
    cholSolve_dim1 (fun _ _ => (1 : ℝ)) stI.Grad (by norm_num)]
  dsimp only
  rw [if_pos]
  · refine Prod.ext (funext fun i => ?_) rfl
    fin_cases i
    norm_num [stI]
  · norm_num [dot, Fin.sum_univ_one, stI]

theorem stI_hov_eval :
    (getxRun (fun _ => 0)
      (fun i => stI.lambda i + (getSearchDir stI.Grad (getHes stI.x (cfg1 1).A) stI.delta).1 i)
      (cfg1 1).G (ATof (cfg1 1))).2 = false := by
  rw [getSearchDir_stI_eval]
  rw [Bool.eq_false_iff]
  intro htrue
  have h0 := (getxGo_ok_iff _ _ _ _ _).mp htrue 0 (List.mem_finRange 0)
  rw [logxv] at h0
  norm_num [didot, Fin.sum_univ_one, stI, cfg1, ATof, MAXLOGX] at h0

theorem stI_hfeas_eval :
    (getxRun stI.x stI.lambda (cfg1 1).G (ATof (cfg1 1))).2 = true := by
  refine (getxGo_ok_iff _ _ _ _ _).mpr fun j _ => ?_
  fin_cases j
  norm_num [logxv, didot, Fin.sum_univ_one, stI, cfg1, ATof, MAXLOGX]

theorem trialOverflow_rejected_and_loop_continues_witness :
    (0 < (cfg1 1).eta ∧ (cfg1 1).eta < 1 / 4 ∧
      (getxRun (fun _ => 0)
        (fun i => stI.lambda i +
          (getSearchDir stI.Grad (getHes stI.x (cfg1 1).A) stI.delta).1 i)
        (cfg1 1).G (ATof (cfg1 1))).2 = false ∧
      (getxRun stI.x stI.lambda (cfg1 1).G (ATof (cfg1 1))).2 = true) ∧
    (getRho stI.lambda (getSearchDir stI.Grad (getHes stI.x (cfg1 1).A) stI.delta).1
      stI.Grad stI.x (getHes stI.x (cfg1 1).A) (cfg1 1).x0 (cfg1 1).G (ATof (cfg1 1)) = -1 ∧
    ∃ st1, innerStep (cfg1 1) stI = some st1 ∧ st1.lambda = stI.lambda ∧
      st1.nNoStep = stI.nNoStep + 1) := by
  have he0 : (0 : ℝ) < (cfg1 1).eta := by norm_num [cfg1]
  have he1 : (cfg1 1).eta < 1 / 4 := by norm_num [cfg1]
  exact ⟨⟨he0, he1, stI_hov_eval, stI_hfeas_eval⟩,
    trialOverflow_rejected_and_loop_continues (cfg1 1) stI he0 he1
      stI_hov_eval stI_hfeas_eval⟩

theorem perturbAux_zero {S T : ℕ} (G : Fin T → ℝ) (AT : Fin T → Fin S → ℤ)
    (lam : Fin S → ℝ) (u : ℕ → ℝ) (ridx : ℕ) (s : ℝ) :
    perturbAux G AT lam u ridx s 0 = none := rfl

theorem perturbAux_succ {S T : ℕ} (G : Fin T → ℝ) (AT : Fin T → Fin S → ℤ)
    (lam : Fin S → ℝ) (u : ℕ → ℝ) (ridx : ℕ) (s : ℝ) (fuel : ℕ) :
    perturbAux G AT lam u ridx s (fuel + 1) =
      if (getxRun (fun _ => 0)
          (fun i : Fin S => lam i + s * 2 * (u (ridx + i.val) - 0.5)) G AT).2 then
        some ((fun i : Fin S => lam i + s * 2 * (u (ridx + i.val) - 0.5)), ridx + S)
      else perturbAux G AT lam u (ridx + S) (s / 2) fuel := rfl

theorem perturbAux_of_attempt {S T : ℕ} (G : Fin T → ℝ)
    (AT : Fin T → Fin S → ℤ) (lam : Fin S → ℝ) (u : ℕ → ℝ) :
    ∀ (n ridx : ℕ) (s : ℝ),
      (getxRun (fun _ => 0)
        (fun i : Fin S => lam i + s / 2 ^ n * 2 * (u (ridx + n * S + i.val) - 0.5))
        G AT).2 = true →
      ∃ r, perturbAux G AT lam u ridx s (n + 1) = some r := by
  intro n
  induction n with
  | zero =>
    intro ridx s h
    have heq : (fun i : Fin S =>
        lam i + s / 2 ^ 0 * 2 * (u (ridx + 0 * S + i.val) - 0.5)) =
        fun i : Fin S => lam i + s * 2 * (u (ridx + i.val) - 0.5) := by
      funext i
      norm_num
    rw [heq] at h
    rw [perturbAux_succ, if_pos h]
    exact ⟨_, rfl⟩
  | succ n ih =>
    intro ridx s h
    rw [perturbAux_succ]
    by_cases h0 : (getxRun (fun _ => 0)
        (fun i : Fin S => lam i + s * 2 * (u (ridx + i.val) - 0.5)) G AT).2 = true
    · rw [if_pos h0]
      exact ⟨_, rfl⟩
    · rw [if_neg h0]
      apply ih (ridx + S) (s / 2)
      have heq : (fun i : Fin S =>
          lam i + s / 2 ^ (n + 1) * 2 * (u (ridx + (n + 1) * S + i.val) - 0.5)) =
          fun i : Fin S =>
            lam i + s / 2 / 2 ^ n * 2 * (u (ridx + S + n * S + i.val) - 0.5) := by
        funext i
        have h1 : s / 2 ^ (n + 1) = s / 2 / 2 ^ n := by
          rw [pow_succ]
          ring
        have h2 : ridx + (n + 1) * S + i.val = ridx + S + n * S + i.val := by ring
        rw [h1, h2]
      rw [heq] at h
      exact h

theorem perturb_boundary_all_fail :
    ∀ (fuel ridx : ℕ) (s : ℝ), 0 < s →
      perturbAux ![(0 : ℝ)] ![![1]] ![MAXLOGX] uOne ridx s fuel = none := by
  intro fuel
  induction fuel with
  | zero => intro ridx s _; rfl
  | succ fuel ih =>
    intro ridx s hs
    rw [perturbAux_succ]
    have hfail : (getxRun (fun _ => 0)
        (fun i : Fin 1 => ![MAXLOGX] i + s * 2 * (uOne (ridx + i.val) - 0.5))
        ![(0 : ℝ)] ![![1]]).2 = false := by
      rw [Bool.eq_false_iff]
      intro htrue
      have h0 := (getxGo_ok_iff _ _ _ _ _).mp htrue 0 (List.mem_finRange 0)
      rw [logxv] at h0
      simp only [didot, Fin.sum_univ_one, uOne] at h0
      norm_num [Matrix.cons_val_fin_one] at h0
      linarith
    rw [hfail]
    simpa using ih (ridx + 1) (s / 2) (by linarith)

/-- C9 counterexample: a starting λ whose parameter map is overflow-free
but sits exactly on the ceiling (`logx = MAXLOGX`) together with the
all-ones draw stream makes every perturbation attempt overflow, at every
scale, so `PerturbLambda` never terminates in the real-number model: the
claim fails for merely overflow-free (as opposed to strictly feasible)
starting points. -/
theorem perturbLambda_boundary_feasible_diverges :
    (getxRun (fun _ => 0) ![MAXLOGX] ![(0 : ℝ)] ![![1]]).2 = true ∧
    ¬PerturbTerminates ![(0 : ℝ)] ![![1]] ![MAXLOGX] uOne 0 1 := by
  constructor
  · refine (getxGo_ok_iff _ _ _ _ _).mpr fun j _ => ?_
    fin_cases j
    simp [logxv, didot, Fin.sum_univ_one, Matrix.cons_val_fin_one]
  · rintro ⟨fuel, r, hr⟩
    rw [perturb_boundary_all_fail fuel 0 1 (by norm_num)] at hr
    exact Option.noConfusion hr

/-- C9 (amended): `PerturbLambda` terminates for every starting λ that is
strictly feasible (`logx_j < MAXLOGX` for every complex `j`), for every
stream of draws inside the generator's range `[0,1]` and every positive
starting scale: halving the scale shrinks the perturbation of each
exponent below the positive slack, so some attempt is overflow-free. -/
theorem perturbLambda_terminates_of_strict_feasible {S T : ℕ}
    (G : Fin T → ℝ) (AT : Fin T → Fin S → ℤ) (lam : Fin S → ℝ) (u : ℕ → ℝ)
    (ridx : ℕ) (s : ℝ) (hu : ∀ k, 0 ≤ u k ∧ u k ≤ 1) (hs : 0 < s)
    (hstrict : ∀ j, -G j + didot lam (AT j) < MAXLOGX) :
    PerturbTerminates G AT lam u ridx s := by
  classical
  set K : ℝ := ∑ j : Fin T, ∑ i : Fin S, |(AT j i : ℝ)| with hKdef
  have hK0 : 0 ≤ K := by positivity
  rcases Nat.eq_zero_or_pos T with hT | hTpos
  · subst hT
    obtain ⟨r, hr⟩ := perturbAux_of_attempt G AT lam u 0 ridx s
      ((getxGo_ok_iff _ _ _ _ _).mpr fun j _ => Fin.elim0 j)
    exact ⟨1, r, hr⟩
  · have hne : Nonempty (Fin T) := ⟨⟨0, hTpos⟩⟩
    have hneU : (Finset.univ : Finset (Fin T)).Nonempty := Finset.univ_nonempty
    set eps : ℝ :=
      Finset.univ.inf' hneU fun j => MAXLOGX - (-G j + didot lam (AT j)) with hepsdef
    have heps : 0 < eps :=
      (Finset.lt_inf'_iff hneU).mpr fun j _ => sub_pos.mpr (hstrict j)
    obtain ⟨n, hn⟩ := pow_unbounded_of_one_lt (s * K / eps) (by norm_num : (1 : ℝ) < 2)
    have hpow : (0 : ℝ) < 2 ^ n := by positivity
    have hsK : s / 2 ^ n * K < eps := by
      rw [div_mul_eq_mul_div, div_lt_iff₀ hpow]
      calc s * K = s * K / eps * eps := by field_simp
      _ < 2 ^ n * eps := by
          exact mul_lt_mul_of_pos_right hn heps
      _ = eps * 2 ^ n := by ring
    have hatt : (getxRun (fun _ => 0)
        (fun i : Fin S => lam i + s / 2 ^ n * 2 * (u (ridx + n * S + i.val) - 0.5))
        G AT).2 = true := by
      refine (getxGo_ok_iff _ _ _ _ _).mpr fun j _ => ?_
      have hexpand : logxv
          (fun i : Fin S => lam i + s / 2 ^ n * 2 * (u (ridx + n * S + i.val) - 0.5))
          G AT j =
          (-G j + didot lam (AT j)) +
            ∑ i : Fin S, s / 2 ^ n * 2 * (u (ridx + n * S + i.val) - 0.5) * (AT j i : ℝ) := by
        simp only [logxv, didot, add_mul, Finset.sum_add_distrib]
        ring
      have hterm : ∀ i : Fin S,
          s / 2 ^ n * 2 * (u (ridx + n * S + i.val) - 0.5) * (AT j i : ℝ) ≤
            s / 2 ^ n * |(AT j i : ℝ)| := by
        intro i
        have habs : |s / 2 ^ n * 2 * (u (ridx + n * S + i.val) - 0.5) * (AT j i : ℝ)| ≤
            s / 2 ^ n * |(AT j i : ℝ)| := by
          rw [abs_mul, abs_mul, abs_mul]
          have hu1 : |u (ridx + n * S + i.val) - 0.5| ≤ 0.5 := by
            rw [abs_le]
            constructor <;> linarith [(hu (ridx + n * S + i.val)).1,
              (hu (ridx + n * S + i.val)).2]
          have hsn : |s / 2 ^ n| = s / 2 ^ n := abs_of_pos (by positivity)
          rw [hsn]
          calc s / 2 ^ n * |(2 : ℝ)| * |u (ridx + n * S + i.val) - 0.5| * |(AT j i : ℝ)| ≤
              s / 2 ^ n * |(2 : ℝ)| * 0.5 * |(AT j i : ℝ)| := by
                have h2 : (0 : ℝ) ≤ s / 2 ^ n * |(2 : ℝ)| := by positivity
                exact mul_le_mul_of_nonneg_right
                  (mul_le_mul_of_nonneg_left hu1 h2) (abs_nonneg _)
          _ = s / 2 ^ n * |(AT j i : ℝ)| := by
                rw [abs_of_pos (by norm_num : (0 : ℝ) < 2)]
                ring
        exact le_trans (le_abs_self _) habs
      have hrow : (∑ i : Fin S, |(AT j i : ℝ)|) ≤ K := by
        rw [hKdef]
        exact Finset.single_le_sum
          (f := fun j => ∑ i : Fin S, |(AT j i : ℝ)|)
          (fun m _ => by positivity) (Finset.mem_univ j)
      have hsum : (∑ i : Fin S,
          s / 2 ^ n * 2 * (u (ridx + n * S + i.val) - 0.5) * (AT j i : ℝ)) ≤
          s / 2 ^ n * K := by
        calc (∑ i : Fin S,
            s / 2 ^ n * 2 * (u (ridx + n * S + i.val) - 0.5) * (AT j i : ℝ)) ≤
            ∑ i : Fin S, s / 2 ^ n * |(AT j i : ℝ)| :=
              Finset.sum_le_sum fun i _ => hterm i
        _ = s / 2 ^ n * ∑ i : Fin S, |(AT j i : ℝ)| := by
              rw [Finset.mul_sum]
        _ ≤ s / 2 ^ n * K :=
              mul_le_mul_of_nonneg_left hrow (by positivity)
      have hepsle : eps ≤ MAXLOGX - (-G j + didot lam (AT j)) := by
        rw [hepsdef]
        exact Finset.inf'_le _ (Finset.mem_univ j)
      rw [hexpand]
      linarith
    obtain ⟨r, hr⟩ := perturbAux_of_attempt G AT lam u n ridx s hatt
    exact ⟨n + 1, r, hr⟩

theorem perturbLambda_terminates_witness :
    ((∀ k, 0 ≤ uOne k ∧ uOne k ≤ 1) ∧ (0 : ℝ) < 1 ∧
      (∀ j : Fin 1, -(![(0 : ℝ)] j) + didot ![(0 : ℝ)] (![![1]] j) < MAXLOGX)) ∧
    PerturbTerminates ![(0 : ℝ)] ![![1]] ![(0 : ℝ)] uOne 0 1 := by
  have h1 : ∀ k, 0 ≤ uOne k ∧ uOne k ≤ 1 := fun k => by norm_num [uOne]
  have h2 : (0 : ℝ) < 1 := by norm_num
  have h3 : ∀ j : Fin 1, -(![(0 : ℝ)] j) + didot ![(0 : ℝ)] (![![1]] j) < MAXLOGX := by
    intro j
    fin_cases j
    norm_num [didot, Fin.sum_univ_one, MAXLOGX]
  exact ⟨⟨h1, h2, h3⟩,
    perturbLambda_terminates_of_strict_feasible ![(0 : ℝ)] ![![1]] ![(0 : ℝ)]
      uOne 0 1 h1 h2 h3⟩

theorem findNonZero_eq_of_unique {T : ℕ} (v : Fin (T + 1) → ℤ) (j : Fin (T + 1))
    (hj : v j ≠ 0) (huniq : ∀ k, v k ≠ 0 → k = j) : findNonZero v = j := by
  rw [findNonZero]
  cases hf : (List.finRange (T + 1)).find? fun k => decide (v k ≠ 0) with
  | none =>
    exfalso
    have := List.find?_eq_none.mp hf j (List.mem_finRange j)
    simp only [decide_eq_true_eq] at this
    exact this hj
  | some a =>
    have ha := List.find?_some hf
    simp only [decide_eq_true_eq] at ha
    simpa using huniq a ha

theorem rowsum_one_unique_nonzero {T : ℕ} (v : Fin (T + 1) → ℤ)
    (hnn : ∀ j, 0 ≤ v j) (hsum : sumint v = 1) (j : Fin (T + 1)) (hj : v j ≠ 0) :
    ∀ k, v k ≠ 0 → k = j := by
  intro k hk
  by_contra hkj
  have h1 : 1 ≤ v j := lt_of_le_of_ne (hnn j) (Ne.symm hj)
  have h2 : 1 ≤ v k := lt_of_le_of_ne (hnn k) (Ne.symm hk)
  have hks : k ∈ Finset.univ.erase j := Finset.mem_erase.mpr ⟨hkj, Finset.mem_univ k⟩
  have h3 : v k ≤ ∑ x ∈ Finset.univ.erase j, v x :=
    Finset.single_le_sum (fun m _ => hnn m) hks
  have h4 : v j + ∑ x ∈ Finset.univ.erase j, v x = sumint v :=
    Finset.add_sum_erase Finset.univ v (Finset.mem_univ j)
  rw [hsum] at h4
  omega

/-- C6 (amended): after `getInitialGuess` returns — including on restarts
with `rand_seed ≠ 0`, where the perturbation runs after the uniform
assignment and before the inert override — every monomer `i` whose row of
A has **sum 1** (the test `sumint(A[i]) == 1` of line 277: a single entry
equal to 1, entries being non-negative) has `λ[i] = log(x0[i]) + G[j*]`
for the unique column `j*` with `A[i][j*] ≠ 0`. -/
theorem getInitialGuess_rowsum_one_pinned {S T : ℕ} (x0 : Fin S → ℝ)
    (G : Fin (T + 1) → ℝ) (AT : Fin (T + 1) → Fin S → ℤ)
    (A : Fin S → Fin (T + 1) → ℤ) (PerturbScale : ℝ) (rs : ℕ) (u : ℕ → ℝ)
    (ridx pfuel : ℕ) (lamr : (Fin S → ℝ) × ℕ)
    (hres : getInitialGuessF x0 G AT A PerturbScale rs u ridx pfuel = some lamr)
    (i : Fin S) (hnn : ∀ j, 0 ≤ A i j) (hsum : sumint (A i) = 1)
    (j : Fin (T + 1)) (hj : A i j ≠ 0) :
    lamr.1 i = Real.log (x0 i) + G j := by
  dsimp only [getInitialGuessF] at hres
  split at hres
  · exact absurd hres (by simp)
  · rw [Option.some.injEq] at hres
    subst hres
    dsimp only
    rw [if_pos hsum,
      findNonZero_eq_of_unique (A i) j hj (rowsum_one_unique_nonzero (A i) hnn hsum j hj)]

theorem initLambdaVal_dim1 (G : Fin 1 → ℝ) (AT : Fin 1 → Fin 1 → ℤ) :
    initLambdaVal G AT = (1 + G 0) / (sumint (AT 0) : ℝ) := by
  rw [initLambdaVal]
  have h1 : List.finRange 1 = [0] := by decide
  rw [h1]
  simp

theorem getInitialGuessF_noseed_eval {S T : ℕ} (x0 : Fin S → ℝ)
    (G : Fin (T + 1) → ℝ) (AT : Fin (T + 1) → Fin S → ℤ)
    (A : Fin S → Fin (T + 1) → ℤ) (PerturbScale : ℝ) (u : ℕ → ℝ)
    (ridx pfuel : ℕ) :
    getInitialGuessF x0 G AT A PerturbScale 0 u ridx pfuel =
      some
        ((fun i =>
          if sumint (A i) = 1 then Real.log (x0 i) + G (findNonZero (A i))
          else initLambdaVal G AT), ridx) := by
  rw [getInitialGuessF]
  simp

/-- C6 counterexample: for `A = [[2]]` — a row with exactly one non-zero
entry, namely 2 — the pinning test `sumint(A[i]) == 1` of line 277 fails,
so `getInitialGuess` keeps the uniform value `λ₀ = (1+G[0])/2 = 1/2`
instead of the claimed `log(x0[0]) + G[0] = log 1 + 0 = 0`: the code pins
monomers whose row *sums* to 1, not those with a single non-zero entry. -/
theorem getInitialGuess_single_nonzero_not_pinned :
    (∃ lamr, getInitialGuessF ![(1 : ℝ)] ![(0 : ℝ)] ![![2]] ![![2]] 1 0 uOne 0 5 =
        some lamr ∧ lamr.1 0 = 1 / 2) ∧
    (1 : ℝ) / 2 ≠ Real.log (![(1 : ℝ)] 0) + ![(0 : ℝ)] 0 := by
  constructor
  · refine ⟨_, getInitialGuessF_noseed_eval ![(1 : ℝ)] ![(0 : ℝ)] ![![2]] ![![2]] 1 uOne 0 5, ?_⟩
    have hsum : sumint (![![2]] (0 : Fin 1)) = 2 := by
      simp [sumint, Fin.sum_univ_one]
    rw [show ((fun i =>
        if sumint (![![2]] i) = 1 then
          Real.log (![(1 : ℝ)] i) + ![(0 : ℝ)] (findNonZero (![![2]] i))
        else initLambdaVal ![(0 : ℝ)] ![![2]]), (0 : ℕ)).1 (0 : Fin 1) =
        (if sumint (![![2]] (0 : Fin 1)) = 1 then
          Real.log (![(1 : ℝ)] (0 : Fin 1)) +
            ![(0 : ℝ)] (findNonZero (![![2]] (0 : Fin 1)))
        else initLambdaVal ![(0 : ℝ)] ![![2]]) from rfl]
    rw [hsum]
    norm_num [initLambdaVal_dim1, sumint, Fin.sum_univ_one]
  · rw [show (![(1 : ℝ)] 0) = 1 from rfl, Real.log_one]
    norm_num

theorem getInitialGuess_rowsum_one_pinned_witness :
    ((∀ j, 0 ≤ ![![(1 : ℤ)]] 0 j) ∧ sumint (![![(1 : ℤ)]] 0) = 1 ∧
      ![![(1 : ℤ)]] 0 0 ≠ 0) ∧
    ∃ lamr, getInitialGuessF ![(1 : ℝ)] ![(0 : ℝ)] ![![1]] ![![1]] 1 0 uOne 0 5 =
        some lamr ∧ lamr.1 0 = Real.log (![(1 : ℝ)] 0) + ![(0 : ℝ)] 0 := by
  have hnn : ∀ j, 0 ≤ ![![(1 : ℤ)]] 0 j := fun j => by fin_cases j; norm_num
  have hsum : sumint (![![(1 : ℤ)]] 0) = 1 := by simp [sumint, Fin.sum_univ_one]
  have hj : ![![(1 : ℤ)]] 0 0 ≠ 0 := by norm_num
  have heval := getInitialGuessF_noseed_eval ![(1 : ℝ)] ![(0 : ℝ)] ![![1]] ![![1]] 1 uOne 0 5
  exact ⟨⟨hnn, hsum, hj⟩, ⟨_, heval,
    getInitialGuess_rowsum_one_pinned ![(1 : ℝ)] ![(0 : ℝ)] ![![1]] ![![1]] 1 0 uOne
      0 5 _ heval 0 hnn hsum 0 hj⟩⟩

theorem innerStep_gradInv {S T : ℕ} (cfg : CCParams S (T + 1))
    (st st1 : InnerState S (T + 1)) (h : innerStep cfg st = some st1) :
    st1.Grad = getGrad cfg.x0 st1.x cfg.A := by
  dsimp only [innerStep] at h
  split at h <;> split at h <;>
    first
      | (rw [Option.some.injEq] at h
         subst h
         rfl)
      | exact absurd h (by simp)

theorem innerLoop_gradInv {S T : ℕ} (cfg : CCParams S (T + 1)) (fuel : ℕ)
    (st st1 : InnerState S (T + 1)) (hInv : st.Grad = getGrad cfg.x0 st.x cfg.A)
    (h : innerLoop cfg fuel st = some st1) :
    st1.Grad = getGrad cfg.x0 st1.x cfg.A := by
  induction fuel generalizing st with
  | zero =>
    rw [innerLoop_zero, Option.some.injEq] at h
    subst h
    exact hInv
  | succ fuel ih =>
    rw [innerLoop_succ] at h
    split at h
    · cases hs : innerStep cfg st with
      | none => rw [hs] at h; exact absurd h (by simp)
      | some st2 =>
        rw [hs] at h
        exact ih st2 (innerStep_gradInv cfg st st2 hs) h
    · rw [Option.some.injEq] at h
      subst h
      exact hInv

theorem trialStep_ok_fields {S T : ℕ} (cfg : CCParams S (T + 1)) (u : ℕ → ℝ)
    (pfuel : ℕ) (st st1 : TrialState S (T + 1))
    (h : trialStep cfg u pfuel st = Step.ok st1) :
    st1.nTrial = st.nTrial + 1 ∧ st1.Grad = getGrad cfg.x0 st1.x cfg.A := by
  dsimp only [trialStep] at h
  split at h
  · exact absurd h (by simp)
  · split at h
    · cases hs : innerLoop cfg cfg.MaxIters _ with
      | none => rw [hs] at h; exact absurd h (by simp)
      | some ist =>
        rw [hs] at h
        have hinv := innerLoop_gradInv cfg cfg.MaxIters _ ist rfl hs
        cases h
        exact ⟨rfl, hinv⟩
    · exact absurd h (by simp)

theorem trialLoop_nTrial_le {S T : ℕ} (cfg : CCParams S (T + 1)) (u : ℕ → ℝ)
    (pfuel fuel : ℕ) (st st1 : TrialState S (T + 1))
    (hle : st.nTrial ≤ cfg.MaxTrial)
    (h : trialLoop cfg u pfuel fuel st = Step.ok st1) :
    st1.nTrial ≤ cfg.MaxTrial := by
  induction fuel generalizing st with
  | zero =>
    rw [trialLoop_zero] at h
    cases h
    exact hle
  | succ fuel ih =>
    rw [trialLoop_succ] at h
    split at h
    · rename_i hcond
      cases hs : trialStep cfg u pfuel st with
      | fatal => rw [hs] at h; exact absurd h (by simp)
      | noFuel => rw [hs] at h; exact absurd h (by simp)
      | ok st2 =>
        rw [hs] at h
        have hn := (trialStep_ok_fields cfg u pfuel st st2 hs).1
        exact ih st2 (by omega) h
    · cases h
      exact hle

theorem trialLoop_exit {S T : ℕ} (cfg : CCParams S (T + 1)) (u : ℕ → ℝ)
    (pfuel fuel : ℕ) (st st1 : TrialState S (T + 1))
    (hfuel : cfg.MaxTrial ≤ st.nTrial + fuel) (hle : st.nTrial ≤ cfg.MaxTrial)
    (h : trialLoop cfg u pfuel fuel st = Step.ok st1) :
    CheckTol st1.Grad (absTolOf cfg) ∨ st1.nTrial = cfg.MaxTrial := by
  induction fuel generalizing st with
  | zero =>
    rw [trialLoop_zero] at h
    cases h
    exact Or.inr (by omega)
  | succ fuel ih =>
    rw [trialLoop_succ] at h
    split at h
    · rename_i hcond
      cases hs : trialStep cfg u pfuel st with
      | fatal => rw [hs] at h; exact absurd h (by simp)
      | noFuel => rw [hs] at h; exact absurd h (by simp)
      | ok st2 =>
        rw [hs] at h
        have hn := (trialStep_ok_fields cfg u pfuel st st2 hs).1
        exact ih st2 (by omega) (by omega) h
    · rename_i hcond
      cases h
      rcases not_and_or.mp hcond with hc | hc
      · exact Or.inl (not_not.mp hc)
      · exact Or.inr (by omega)

theorem trialLoop_gradInv_or_init {S T : ℕ} (cfg : CCParams S (T + 1))
    (u : ℕ → ℝ) (pfuel fuel : ℕ) (st st1 : TrialState S (T + 1))
    (h : trialLoop cfg u pfuel fuel st = Step.ok st1) :
    st1 = st ∨ st1.Grad = getGrad cfg.x0 st1.x cfg.A := by
  induction fuel generalizing st with
  | zero =>
    rw [trialLoop_zero] at h
    cases h
    exact Or.inl rfl
  | succ fuel ih =>
    rw [trialLoop_succ] at h
    split at h
    · cases hs : trialStep cfg u pfuel st with
      | fatal => rw [hs] at h; exact absurd h (by simp)
      | noFuel => rw [hs] at h; exact absurd h (by simp)
      | ok st2 =>
        rw [hs] at h
        have hinv := (trialStep_ok_fields cfg u pfuel st st2 hs).2
        rcases ih st2 h with heq | hinv1
        · exact Or.inr (heq ▸ hinv)
        · exact Or.inr hinv1
    · cases h
      exact Or.inl rfl

/-- C1 (amended): `CalcConc` returns `converged = (nTrial < MaxTrial)` as
read at the exit of the trial loop (the source tests `nTrial == MaxTrial`,
and `nTrial` never exceeds `MaxTrial`).  Consequently `converged = false`
exactly when the loop consumed all `MaxTrial` trials — **including** the
case in which the tolerance was first satisfied on the final trial — and
`converged = true` iff the tolerance was met with trials to spare. -/
theorem calcConc_flag_iff_trials_remaining {S T : ℕ} (x_init : Fin (T + 1) → ℝ)
    (cfg : CCParams S (T + 1)) (u : ℕ → ℝ) (pfuel : ℕ)
    (xv : Fin (T + 1) → ℝ) (b : Bool)
    (h : CalcConc x_init cfg u pfuel = Step.ok (xv, b)) :
    ∃ st1, trialLoop cfg u pfuel cfg.MaxTrial (initTrialState x_init (absTolOf cfg)) =
        Step.ok st1 ∧ xv = st1.x ∧ st1.nTrial ≤ cfg.MaxTrial ∧
      (b = true ↔ st1.nTrial < cfg.MaxTrial) := by
  dsimp only [CalcConc] at h
  cases hl : trialLoop cfg u pfuel cfg.MaxTrial (initTrialState x_init (absTolOf cfg)) with
  | fatal => rw [hl] at h; exact absurd h (by simp)
  | noFuel => rw [hl] at h; exact absurd h (by simp)
  | ok st1 =>
    rw [hl] at h
    have hle : st1.nTrial ≤ cfg.MaxTrial :=
      trialLoop_nTrial_le cfg u pfuel cfg.MaxTrial _ st1 (Nat.zero_le _) hl
    rw [Step.ok.injEq, Prod.mk.injEq] at h
    obtain ⟨hx, hb⟩ := h
    refine ⟨st1, rfl, hx.symm, hle, ?_⟩
    rw [← hb]
    simp only [decide_eq_true_eq]
    omega

/-- C3: whenever `CalcConc` returns `converged = true`, the returned `x`
satisfies mass balance within tolerance: `|⟨x, A[i,·]⟩ − x0[i]| ≤ tol·x0[i]`
for every monomer `i` — the gradient that passed the termination test is
by construction recomputed from the very `x` that is returned (the loop
recomputes `Grad` from the freshly written `x` after every step). -/
theorem calcConc_converged_mass_balance {S T : ℕ} (x_init : Fin (T + 1) → ℝ)
    (cfg : CCParams S (T + 1)) (u : ℕ → ℝ) (pfuel : ℕ)
    (xv : Fin (T + 1) → ℝ) (htol : 0 < cfg.tol) (hx0 : ∀ i, 0 < cfg.x0 i)
    (h : CalcConc x_init cfg u pfuel = Step.ok (xv, true)) :
    ∀ i, |didot xv (cfg.A i) - cfg.x0 i| ≤ cfg.tol * cfg.x0 i := by
  dsimp only [CalcConc] at h
  cases hl : trialLoop cfg u pfuel cfg.MaxTrial (initTrialState x_init (absTolOf cfg)) with
  | fatal => rw [hl] at h; exact absurd h (by simp)
  | noFuel => rw [hl] at h; exact absurd h (by simp)
  | ok st1 =>
    rw [hl] at h
    have hle : st1.nTrial ≤ cfg.MaxTrial :=
      trialLoop_nTrial_le cfg u pfuel cfg.MaxTrial _ st1 (Nat.zero_le _) hl
    rw [Step.ok.injEq, Prod.mk.injEq] at h
    obtain ⟨hx, hb0⟩ := h
    have hxv : xv = st1.x := hx.symm
    have hb : st1.nTrial ≠ cfg.MaxTrial := by simpa using hb0
    have hck : CheckTol st1.Grad (absTolOf cfg) := by
      rcases trialLoop_exit cfg u pfuel cfg.MaxTrial _ st1
        (Nat.le_add_left _ _) (Nat.zero_le _) hl with hck | heq
      · exact hck
      · exact absurd heq hb
    intro i
    rcases trialLoop_gradInv_or_init cfg u pfuel cfg.MaxTrial _ st1 hl with heq | hinv
    · exfalso
      have h0 := hck i
      rw [heq] at h0
      have habs : (initTrialState x_init (absTolOf cfg)).Grad i = absTolOf cfg i + 1 := rfl
      rw [habs] at h0
      have hpos : 0 < absTolOf cfg i := mul_pos htol (hx0 i)
      rw [abs_of_pos (by linarith)] at h0
      linarith
    · have hi := hck i
      rw [hinv] at hi
      simpa [getGrad, abs_sub_comm, sub_eq_add_neg, add_comm, hxv] using hi

theorem cfg1_lam_eval (m : ℕ) :
    (fun i : Fin 1 =>
      if sumint ((cfg1 m).A i) = 1 then
        Real.log ((cfg1 m).x0 i) + (cfg1 m).G (findNonZero ((cfg1 m).A i))
      else initLambdaVal (cfg1 m).G (ATof (cfg1 m))) = ![(0 : ℝ)] := by
  funext i
  have hi : i = 0 := Subsingleton.elim i 0
  subst hi
  have hsum : sumint ((cfg1 m).A 0) = 1 := by
    simp [sumint, Fin.sum_univ_one, cfg1]
  rw [if_pos hsum]
  have hG : (cfg1 m).G (findNonZero ((cfg1 m).A 0)) = 0 := by
    simp [cfg1, Matrix.cons_val_fin_one]
  have hx0 : (cfg1 m).x0 0 = 1 := by simp [cfg1]
  rw [hG, hx0, Real.log_one]
  norm_num

theorem cfg1_getx_eval (m : ℕ) (xbuf : Fin 1 → ℝ) :
    getxRun xbuf ![(0 : ℝ)] (cfg1 m).G (ATof (cfg1 m)) = (![(1 : ℝ)], true) := by
  have hok : ∀ j ∈ List.finRange 1,
      logxv ![(0 : ℝ)] (cfg1 m).G (ATof (cfg1 m)) j ≤ MAXLOGX := by
    intro j _
    fin_cases j
    norm_num [logxv, didot, Fin.sum_univ_one, cfg1, ATof, MAXLOGX]
  refine Prod.ext (funext fun k => ?_) ((getxGo_ok_iff _ _ _ _ _).mpr hok)
  rw [show (getxRun xbuf ![(0 : ℝ)] (cfg1 m).G (ATof (cfg1 m))).1 =
      (getxGo ![(0 : ℝ)] (cfg1 m).G (ATof (cfg1 m)) (List.finRange 1) xbuf).1 from rfl,
    getxGo_ok_val _ _ _ _ _ hok k, if_pos (List.mem_finRange k)]
  fin_cases k
  norm_num [logxv, didot, Fin.sum_univ_one, cfg1, ATof]

theorem cfg1_grad_eval (m : ℕ) :
    getGrad (cfg1 m).x0 ![(1 : ℝ)] (cfg1 m).A = ![(0 : ℝ)] := by
  funext i
  fin_cases i
  norm_num [getGrad, didot, Fin.sum_univ_one, cfg1]

theorem cfg1_checkTol_zero (m : ℕ) : CheckTol ![(0 : ℝ)] (absTolOf (cfg1 m)) := by
  intro i
  fin_cases i
  norm_num [absTolOf, cfg1]

theorem cfg1_innerLoop_eval (m : ℕ) (d : ℝ) :
    innerLoop (cfg1 m) 1 ⟨![(0 : ℝ)], ![(1 : ℝ)], ![(0 : ℝ)], d, 0, 0, fun _ => 0⟩ =
      some ⟨![(0 : ℝ)], ![(1 : ℝ)], ![(0 : ℝ)], d, 0, 0, fun _ => 0⟩ := by
  show innerLoop (cfg1 m) (0 + 1) _ = _
  rw [innerLoop_succ, if_neg]
  rintro ⟨-, h2, -⟩
  exact h2 (cfg1_checkTol_zero m)

theorem trialStep_cfg1_eval (m pfuel : ℕ) :
    trialStep (cfg1 m) uOne pfuel stA = Step.ok stB := by
  dsimp only [trialStep, stA, initTrialState]
  rw [if_neg (by norm_num : ¬(0 : ℕ) = 1), getInitialGuessF_noseed_eval]
  dsimp only
  rw [cfg1_lam_eval m, cfg1_getx_eval m ![(0 : ℝ)]]
  dsimp only
  rw [cfg1_grad_eval m]
  have hML : (cfg1 m).MaxIters = 1 := rfl
  rw [hML, cfg1_innerLoop_eval m (0.99 * (cfg1 m).deltaBar)]
  rfl

theorem cfg1_checkTol_init_fails (m : ℕ) :
    ¬CheckTol stA.Grad (absTolOf (cfg1 m)) := by
  intro h
  have h0 := h 0
  norm_num [stA, initTrialState, absTolOf, cfg1] at h0
  rw [show |(3 : ℝ) / 2| = 3 / 2 from abs_of_pos (by norm_num)] at h0
  linarith

theorem trialLoop_cfg1_one (pf : ℕ) :
    trialLoop (cfg1 1) uOne pf 1 stA = Step.ok stB := by
  show trialLoop (cfg1 1) uOne pf (0 + 1) stA = _
  rw [trialLoop_succ,
    if_pos ⟨cfg1_checkTol_init_fails 1, (by norm_num : (0 : ℕ) < 1)⟩,
    trialStep_cfg1_eval 1 pf]
  rfl

theorem calcConc_cfg1_one :
    CalcConc ![(0 : ℝ)] (cfg1 1) uOne 5 = Step.ok (![(1 : ℝ)], false) := by
  have hl : trialLoop (cfg1 1) uOne 5 (cfg1 1).MaxTrial
      (initTrialState ![(0 : ℝ)] (absTolOf (cfg1 1))) = Step.ok stB :=
    trialLoop_cfg1_one 5
  dsimp only [CalcConc]
  rw [hl]
  rfl

theorem trialLoop_cfg1_two (pf : ℕ) :
    trialLoop (cfg1 2) uOne pf 2 stA = Step.ok stB := by
  show trialLoop (cfg1 2) uOne pf (1 + 1) stA = _
  rw [trialLoop_succ,
    if_pos ⟨cfg1_checkTol_init_fails 2, (by norm_num : (0 : ℕ) < 2)⟩,
    trialStep_cfg1_eval 2 pf]
  show trialLoop (cfg1 2) uOne pf (0 + 1) stB = _
  rw [trialLoop_succ, if_neg]
  rintro ⟨h2, -⟩
  exact h2 (cfg1_checkTol_zero 2)

theorem calcConc_cfg1_two :
    CalcConc ![(0 : ℝ)] (cfg1 2) uOne 5 = Step.ok (![(1 : ℝ)], true) := by
  have hl : trialLoop (cfg1 2) uOne 5 (cfg1 2).MaxTrial
      (initTrialState ![(0 : ℝ)] (absTolOf (cfg1 2))) = Step.ok stB :=
    trialLoop_cfg1_two 5
  dsimp only [CalcConc]
  rw [hl]
  rfl

/-- C1 counterexample: on the concrete `cfg1` instance with `MaxTrial = 1`
the single trial converges — the gradient recomputed from the returned
`x = [1]` satisfies the tolerance (that is why the loop exits) — yet the
function reports `converged = false`, because the converging trial
incremented `nTrial` to `MaxTrial`.  This refutes both "converged = true
whenever some trial satisfies the tolerance" and "converged = false
exactly when all `MaxTrial` restarts are exhausted **without** satisfying
the gradient tolerance"; only the formula `converged = (nTrial < MaxTrial)`
matches the code. -/
theorem calcConc_lastTrial_convergence_reported_false :
    CalcConc ![(0 : ℝ)] (cfg1 1) uOne 5 = Step.ok (![(1 : ℝ)], false) ∧
    CheckTol (getGrad (cfg1 1).x0 ![(1 : ℝ)] (cfg1 1).A) (absTolOf (cfg1 1)) := by
  refine ⟨calcConc_cfg1_one, ?_⟩
  rw [cfg1_grad_eval 1]
  exact cfg1_checkTol_zero 1

theorem calcConc_flag_iff_trials_remaining_witness :
    CalcConc ![(0 : ℝ)] (cfg1 1) uOne 5 = Step.ok (![(1 : ℝ)], false) ∧
    ∃ st1, trialLoop (cfg1 1) uOne 5 (cfg1 1).MaxTrial
        (initTrialState ![(0 : ℝ)] (absTolOf (cfg1 1))) = Step.ok st1 ∧
      ![(1 : ℝ)] = st1.x ∧ st1.nTrial ≤ (cfg1 1).MaxTrial ∧
      (false = true ↔ st1.nTrial < (cfg1 1).MaxTrial) :=
  ⟨calcConc_cfg1_one,
    calcConc_flag_iff_trials_remaining ![(0 : ℝ)] (cfg1 1) uOne 5 ![(1 : ℝ)]
      false calcConc_cfg1_one⟩

/-- C2: `CalcConc` communicates to its caller only the final `x` buffer and
the `int` convergence flag (the embedding's result type `Step ((Fin (T+1) → ℝ) × Bool)`
is exactly what lines 68–71 and 228–233 return).  The free energy of lines
197–210 is computed into the local `FreeEnergy` — here evaluated separately
by `freeEnergy`, giving 0 on this instance — and the `RunStats` counters
are local too; both are discarded on return, contradicting the claimed
result record `{converged, free_energy, run_stats}`. -/
theorem calcConc_returns_only_flag_and_x :
    CalcConc ![(0 : ℝ)] (cfg1 2) uOne 5 = Step.ok (![(1 : ℝ)], true) ∧
    freeEnergy ![(1 : ℝ)] (cfg1 2).G (cfg1 2).x0 (cfg1 2).kT
      (cfg1 2).MolesWaterPerLiter = 0 := by
  refine ⟨calcConc_cfg1_two, ?_⟩
  norm_num [freeEnergy, Fin.sum_univ_one, cfg1, Real.log_one]

theorem calcConc_converged_mass_balance_witness :
    ((0 : ℝ) < (cfg1 2).tol ∧ (∀ i, 0 < (cfg1 2).x0 i) ∧
      CalcConc ![(0 : ℝ)] (cfg1 2) uOne 5 = Step.ok (![(1 : ℝ)], true)) ∧
    ∀ i, |didot ![(1 : ℝ)] ((cfg1 2).A i) - (cfg1 2).x0 i| ≤
      (cfg1 2).tol * (cfg1 2).x0 i := by
  have h1 : (0 : ℝ) < (cfg1 2).tol := by norm_num [cfg1]
  have h2 : ∀ i, 0 < (cfg1 2).x0 i := fun i => by
    fin_cases i
    norm_num [cfg1]
  exact ⟨⟨h1, h2, calcConc_cfg1_two⟩,
    calcConc_converged_mass_balance ![(0 : ℝ)] (cfg1 2) uOne 5 ![(1 : ℝ)] h1 h2
      calcConc_cfg1_two⟩
